import Mathlib

/-!
Verification of the erynrl level-generation pipeline.

This file gives a shallow embedding of the generator code of the
going-rogue repository (package `erynrl`): the tile vocabulary, the
geometric primitives of `geometry.py`, the cellular automaton of
`map/generator/cellular_atomata.py`, the room accumulation and the
rectangle strategies of `map/generator/room.py`, the elbow corridor
router of `map/generator/corridor.py`, and the orchestrator of
`map/generator/__init__.py`.  Randomness is modelled by explicit draw
streams, and NumPy array indexing is modelled with its real semantics:
an index `i` into an axis of length `n` is valid when `-n <= i < n`,
negative indices address the array from the end, and anything else
raises IndexError.
-/

/-- Tile vocabulary of `map/tile.py`: the named tile values used by the
generator.  Only identity of tiles matters to the generator code. -/
inductive Tile where
  | empty
  | floor
  | wall
  | stairsUp
  | stairsDown
deriving DecidableEq, Repr

/-- Two-dimensional point of `geometry.py` (class `Point`). -/
structure Point where
  x : ℤ
  y : ℤ
deriving DecidableEq, Repr

/-- Two-dimensional size of `geometry.py` (class `Size`). -/
structure Size where
  width : ℤ
  height : ℤ
deriving DecidableEq, Repr

/-- Rectangle of `geometry.py` (class `Rect`): an origin and a size. -/
structure Rect where
  origin : Point
  size : Size
deriving DecidableEq, Repr

/-- `Rect.min_x`. -/
def Rect.minX (r : Rect) : ℤ := r.origin.x

/-- `Rect.min_y`. -/
def Rect.minY (r : Rect) : ℤ := r.origin.y

/-- `Rect.max_x = origin.x + size.width - 1`. -/
def Rect.maxX (r : Rect) : ℤ := r.origin.x + r.size.width - 1

/-- `Rect.max_y = origin.y + size.height - 1`. -/
def Rect.maxY (r : Rect) : ℤ := r.origin.y + r.size.height - 1

/-- `Rect.mid_x = origin.x + width // 2` (Python floor division). -/
def Rect.midX (r : Rect) : ℤ := r.origin.x + Int.fdiv r.size.width 2

/-- `Rect.mid_y = origin.y + height // 2` (Python floor division). -/
def Rect.midY (r : Rect) : ℤ := r.origin.y + Int.fdiv r.size.height 2

/-- `Rect.midpoint`. -/
def Rect.midpoint (r : Rect) : Point := ⟨r.midX, r.midY⟩

/-- `Rect.intersects`, with the early-return chain of the source. -/
def Rect.intersects (self other : Rect) : Bool :=
  if other.minX > self.maxX then false
  else if other.maxX < self.minX then false
  else if other.minY > self.maxY then false
  else if other.maxY < self.minY then false
  else true

/-- `Point.__lt__`: both coordinates must be strictly smaller.  This is
only a partial order on points. -/
def pointLt (a b : Point) : Bool := decide (a.x < b.x) && decide (a.y < b.y)

/-- The eight Moore-neighborhood offsets, in the order produced by
`Direction.all` (N, NE, E, SE, S, SW, W, NW); `Point.neighbors` adds
each of these vectors to the point. -/
def neighborOffsets : List (ℤ × ℤ) :=
  [(0, -1), (1, -1), (1, 0), (1, 1), (0, 1), (-1, 1), (-1, 0), (-1, -1)]

/-!
Cellular automaton of `map/generator/cellular_atomata.py`.

The tile buffers are NumPy arrays of shape `(height, width)` indexed as
`tiles[y, x]`.  We embed a buffer as a function from the cell
coordinates `(x, y)` (natural numbers) to a tile; only coordinates with
`x < width` and `y < height` correspond to array cells.
-/

/-- A tile buffer of the automaton, addressed by `(x, y)`. -/
def AGrid : Type := ℕ → ℕ → Tile

/-- NumPy index resolution on one axis of length `dim`: an integer index
`i` is valid iff `-dim <= i < dim`; a negative valid index addresses the
axis from the end.  An invalid index raises IndexError (`none`). -/
def npIndex (dim : ℕ) (i : ℤ) : Option ℕ :=
  if -(dim : ℤ) ≤ i ∧ i < (dim : ℤ) then
    some (if i < 0 then i + (dim : ℤ) else i).toNat
  else
    none

/-- One neighbor test of `CellularAtomataMapGenerator._do_round`: the
source evaluates `from_tiles[neighbor.y, neighbor.x] == Floor` inside
`try ... except IndexError: pass`, so an invalid index contributes
nothing. -/
def neighborIsFloor (width height : ℕ) (g : AGrid) (ix iy : ℤ) : Bool :=
  match npIndex width ix, npIndex height iy with
  | some nx, some ny => g nx ny == Tile.floor
  | _, _ => false

/-- Neighbor count of `_do_round`: starts at 1 for the cell itself and
adds 1 for every one of the eight neighbor positions whose array read
succeeds and yields Floor. -/
def neighborCount (width height : ℕ) (g : AGrid) (x y : ℕ) : ℕ :=
  1 + neighborOffsets.countP
    (fun d => neighborIsFloor width height g ((x : ℤ) + d.1) ((y : ℤ) + d.2))

/-- One round of the automaton (`_do_round`): every cell of the `to`
buffer is written; survival and birth both use the threshold
`number_of_neighbors >= 5`. -/
def doRound (width height : ℕ) (g : AGrid) : AGrid :=
  fun x y =>
    if x < width ∧ y < height then
      let n := neighborCount width height g x y
      let tileIsAlive := g x y == Tile.floor
      if tileIsAlive && decide (n ≥ 5) then Tile.floor
      else if !tileIsAlive && decide (n ≥ 5) then Tile.floor
      else Tile.empty
    else Tile.empty

/-- The double-buffer loop of `_run_atomaton`: round `i` reads
`self.tiles` and writes `alternate_tiles` when `i` is even, and the
other way around when `i` is odd.  The state is the pair
`(self.tiles, alternate_tiles)`. -/
def runBuffers (width height n : ℕ) (tiles alt : AGrid) : AGrid × AGrid :=
  (List.range n).foldl
    (fun pr i =>
      if i % 2 = 0 then (pr.1, doRound width height pr.1)
      else (doRound width height pr.2, pr.2))
    (tiles, alt)

/-- The buffer initially allocated for `alternate_tiles` (`np.full` of
Empty). -/
def emptyGrid : AGrid := fun _ _ => Tile.empty

/-- Grid held in `self.tiles` after `_run_atomaton` returns: after the
loop, iff `number_of_rounds % 2 == 0`, `self.tiles` is replaced by
`alternate_tiles`. -/
def atomatonResult (width height n : ℕ) (seed : AGrid) : AGrid :=
  let pr := runBuffers width height n seed emptyGrid
  if n % 2 = 0 then pr.2 else pr.1

/-- `_run_atomaton` including its configuration check: fewer than one
round raises ValueError (modelled as `none`). -/
def runAtomaton (width height n : ℕ) (seed : AGrid) : Option AGrid :=
  if n < 1 then none else some (atomatonResult width height n seed)

/-- `_fill`: each cell is seeded Floor iff `random.random() <
fill_percentage`; `draws` is the stream of uniform draws, one per
cell. -/
def fillGrid (draws : ℕ → ℕ → ℚ) (fillPercentage : ℚ) : AGrid :=
  fun x y => if draws x y < fillPercentage then Tile.floor else Tile.empty

/-- Neighbor count that the specification describes: 1 for the cell
itself plus 1 per Moore neighbor that lies inside the bounds
(`0 <= nx < width`, `0 <= ny < height`) and holds Floor; positions
outside the bounds are skipped, never wrapped. -/
def specNeighborCount (width height : ℕ) (g : AGrid) (x y : ℕ) : ℕ :=
  1 + neighborOffsets.countP
    (fun d =>
      let ix := (x : ℤ) + d.1
      let iy := (y : ℤ) + d.2
      decide (0 ≤ ix) && decide (ix < (width : ℤ)) &&
      decide (0 ≤ iy) && decide (iy < (height : ℤ)) &&
      (g ix.toNat iy.toNat == Tile.floor))

/-- A 3x3 seed grid whose only Floor cell is the bottom-right cell
`(2, 2)`. -/
def onlyCornerFloor : AGrid :=
  fun x y => if x = 2 ∧ y = 2 then Tile.floor else Tile.empty

/-- An all-Floor seed grid. -/
def allFloorGrid : AGrid := fun _ _ => Tile.floor

/-- C1: for the cell (0, 0) of a 3x3 grid whose only Floor is at
(2, 2), the code computes neighbor count 2 — the neighbor position
(-1, -1) is resolved by NumPy negative indexing to the opposite-edge
cell (2, 2) — while the count described by the claim (outside neighbors
skipped, never wrapped) is 1.  The claimed equality of the two counts
fails. -/
theorem neighbor_count_wraps_at_negative_edge :
    neighborCount 3 3 onlyCornerFloor 0 0 = 2 ∧
    specNeighborCount 3 3 onlyCornerFloor 0 0 = 1 ∧
    neighborCount 3 3 onlyCornerFloor 0 0 ≠
      specNeighborCount 3 3 onlyCornerFloor 0 0 := by
  refine ⟨by decide, by decide, by decide⟩

/-- C2: after `generate()` with `number_of_rounds = 1` on a 3x3
all-Floor seed, the engine still holds the seed grid — the cell (2, 2)
is Floor — although one application of the step rule makes (2, 2)
Empty.  The final parity swap keeps the stale buffer, so the result is
not the 1-fold application of the step rule. -/
theorem atomaton_result_is_stale_after_one_round :
    atomatonResult 3 3 1 allFloorGrid 2 2 = Tile.floor ∧
    doRound 3 3 allFloorGrid 2 2 = Tile.empty := by
  refine ⟨by decide, by decide⟩

/-!
Characterization of the double-buffer loop: after `m >= 1` rounds the
pair `(self.tiles, alternate_tiles)` holds the `m`-fold and the
`(m-1)`-fold application of the step rule, the `m`-fold one sitting in
`self.tiles` exactly when `m` is even.
-/

theorem runBuffers_succ (width height n : ℕ) (tiles alt : AGrid) :
    runBuffers width height (n + 1) tiles alt =
      (fun pr : AGrid × AGrid =>
        if n % 2 = 0 then (pr.1, doRound width height pr.1)
        else (doRound width height pr.2, pr.2)) (runBuffers width height n tiles alt) := by
  unfold runBuffers
  rw [List.range_succ, List.foldl_append]
  rfl

theorem runBuffers_eq (width height : ℕ) (seed alt : AGrid) :
    ∀ n, 1 ≤ n → runBuffers width height n seed alt =
      if n % 2 = 0 then
        ((doRound width height)^[n] seed, (doRound width height)^[n - 1] seed)
      else
        ((doRound width height)^[n - 1] seed, (doRound width height)^[n] seed) := by
  intro n
  induction n with
  | zero => omega
  | succ m ih =>
    intro _
    rcases Nat.eq_zero_or_pos m with hm | hm
    · subst hm
      simp [runBuffers, List.range_succ]
    · rw [runBuffers_succ, ih hm]
      by_cases hp : m % 2 = 0
      · have hp2 : ¬ (m + 1) % 2 = 0 := by omega
        simp only [hp, if_true, hp2, if_false, if_pos, if_neg]
        have h1 : m + 1 - 1 = m := by omega
        rw [h1, ← Function.iterate_succ_apply' (doRound width height) m seed]
      · have hp2 : (m + 1) % 2 = 0 := by omega
        simp only [hp, if_false, hp2, if_true]
        have h1 : m + 1 - 1 = m := by omega
        rw [h1, ← Function.iterate_succ_apply' (doRound width height) m seed]

/-- The grid produced by `_run_atomaton` for `n >= 1` rounds is the
`(n-1)`-fold application of the step rule to the seed grid: the final
buffer swap always selects the buffer holding the next-to-last round
output (for `n = 1`, the untouched seed). -/
theorem atomatonResult_eq_iterate (width height n : ℕ) (seed : AGrid) (hn : 1 ≤ n) :
    atomatonResult width height n seed = (doRound width height)^[n - 1] seed := by
  unfold atomatonResult
  rw [runBuffers_eq width height seed emptyGrid n hn]
  by_cases hp : n % 2 = 0 <;> simp [hp]

/-!
Saturation invariant: on a grid with both sides at least 3, one round of
the automaton keeps every cell other than the bottom-right corner
`(width-1, height-1)` Floor, provided all of those cells were Floor
before the round.  Under the real NumPy indexing the positions beyond
the maximum edges are skipped while the positions at `-1` wrap to the
opposite edge, so every non-corner cell sees at least five valid
neighbor reads of which at most one can resolve to the corner cell.
-/

/-- A valid array read that does not resolve to the bottom-right corner
yields Floor on a grid that is Floor everywhere but that corner. -/
theorem neighborIsFloor_true (width height : ℕ) (g : AGrid)
    (hg : ∀ a b, a < width → b < height →
      ¬(a = width - 1 ∧ b = height - 1) → g a b = Tile.floor)
    (ix iy : ℤ)
    (hx1 : -(width : ℤ) ≤ ix) (hx2 : ix < (width : ℤ))
    (hy1 : -(height : ℤ) ≤ iy) (hy2 : iy < (height : ℤ))
    (hne : ¬((if ix < 0 then ix + (width : ℤ) else ix) = (width : ℤ) - 1 ∧
             (if iy < 0 then iy + (height : ℤ) else iy) = (height : ℤ) - 1)) :
    neighborIsFloor width height g ix iy = true := by
  have hx0 : (0 : ℤ) ≤ (if ix < 0 then ix + (width : ℤ) else ix) := by split <;> omega
  have hxlt : (if ix < 0 then ix + (width : ℤ) else ix) < (width : ℤ) := by split <;> omega
  have hy0 : (0 : ℤ) ≤ (if iy < 0 then iy + (height : ℤ) else iy) := by split <;> omega
  have hylt : (if iy < 0 then iy + (height : ℤ) else iy) < (height : ℤ) := by split <;> omega
  have h1 : npIndex width ix =
      some (if ix < 0 then ix + (width : ℤ) else ix).toNat := by
    unfold npIndex
    rw [if_pos ⟨hx1, hx2⟩]
  have h2 : npIndex height iy =
      some (if iy < 0 then iy + (height : ℤ) else iy).toNat := by
    unfold npIndex
    rw [if_pos ⟨hy1, hy2⟩]
  have hfloor : g (if ix < 0 then ix + (width : ℤ) else ix).toNat
      (if iy < 0 then iy + (height : ℤ) else iy).toNat = Tile.floor := by
    apply hg
    · omega
    · omega
    · intro hc
      apply hne
      constructor
      · omega
      · omega
  simp only [neighborIsFloor, h1, h2, hfloor]
  rfl

/-- One automaton round preserves the state of being Floor everywhere
except possibly at the bottom-right corner, on any grid with both sides
at least 3. -/
theorem doRound_preserves_nonCorner (width height : ℕ) (g : AGrid)
    (hW : 3 ≤ width) (hH : 3 ≤ height)
    (hg : ∀ a b, a < width → b < height →
      ¬(a = width - 1 ∧ b = height - 1) → g a b = Tile.floor) :
    ∀ a b, a < width → b < height → ¬(a = width - 1 ∧ b = height - 1) →
      doRound width height g a b = Tile.floor := by
  intro a b ha hb hne
  have hcount : 5 ≤ neighborCount width height g a b := by
    set p : ℤ × ℤ → Bool :=
      fun d => neighborIsFloor width height g ((a : ℤ) + d.1) ((b : ℤ) + d.2) with hp
    have key : ∃ picks : List (ℤ × ℤ),
        picks.Sublist neighborOffsets ∧ picks.length = 4 ∧ ∀ d ∈ picks, p d = true := by
      by_cases hA : a = width - 1
      · -- right edge; the corner exclusion forces b < height - 1
        have hBlt : b < height - 1 := by
          rcases Nat.lt_or_ge b (height - 1) with h | h
          · exact h
          · exact absurd ⟨hA, by omega⟩ hne
        by_cases hb0 : b = 0
        · refine ⟨[(0, 1), (-1, 1), (-1, 0), (-1, -1)], by decide, rfl, ?_⟩
          intro d hd
          simp only [List.mem_cons, List.not_mem_nil, or_false] at hd
          rcases hd with h | h | h | h <;> subst h <;>
            exact neighborIsFloor_true width height g hg _ _
              (by omega) (by omega) (by omega) (by omega)
              (by split_ifs <;> omega)
        · refine ⟨[(0, -1), (-1, 1), (-1, 0), (-1, -1)], by decide, rfl, ?_⟩
          intro d hd
          simp only [List.mem_cons, List.not_mem_nil, or_false] at hd
          rcases hd with h | h | h | h <;> subst h <;>
            exact neighborIsFloor_true width height g hg _ _
              (by omega) (by omega) (by omega) (by omega)
              (by split_ifs <;> omega)
      · by_cases hB : b = height - 1
        · -- bottom edge, a < width - 1
          have hAlt : a < width - 1 := by omega
          by_cases ha0 : a = 0
          · refine ⟨[(0, -1), (1, -1), (1, 0), (-1, -1)], by decide, rfl, ?_⟩
            intro d hd
            simp only [List.mem_cons, List.not_mem_nil, or_false] at hd
            rcases hd with h | h | h | h <;> subst h <;>
              exact neighborIsFloor_true width height g hg _ _
                (by omega) (by omega) (by omega) (by omega)
                (by split_ifs <;> omega)
          · refine ⟨[(0, -1), (1, -1), (-1, 0), (-1, -1)], by decide, rfl, ?_⟩
            intro d hd
            simp only [List.mem_cons, List.not_mem_nil, or_false] at hd
            rcases hd with h | h | h | h <;> subst h <;>
              exact neighborIsFloor_true width height g hg _ _
                (by omega) (by omega) (by omega) (by omega)
                (by split_ifs <;> omega)
        · -- interior in both axes of the edge classification
          have hAlt : a < width - 1 := by omega
          have hBlt : b < height - 1 := by omega
          refine ⟨[(0, -1), (1, 0), (0, 1), (-1, 0)], by decide, rfl, ?_⟩
          intro d hd
          simp only [List.mem_cons, List.not_mem_nil, or_false] at hd
          rcases hd with h | h | h | h <;> subst h <;>
            exact neighborIsFloor_true width height g hg _ _
              (by omega) (by omega) (by omega) (by omega)
              (by split_ifs <;> omega)
    rcases key with ⟨picks, hsub, hlen, hall⟩
    have h4 : 4 ≤ neighborOffsets.countP p := by
      have hle := hsub.countP_le p
      rw [List.countP_eq_length.mpr hall, hlen] at hle
      exact hle
    have hnc : neighborCount width height g a b = 1 + neighborOffsets.countP p := rfl
    omega
  have hdec : decide (neighborCount width height g a b ≥ 5) = true :=
    decide_eq_true hcount
  unfold doRound
  rw [if_pos ⟨ha, hb⟩]
  cases hAl : (g a b == Tile.floor) <;> simp [hdec, hAl]

/-- Every grid in the round-by-round trajectory from an all-Floor seed
is Floor away from the bottom-right corner. -/
theorem iterate_preserves_nonCorner (width height : ℕ) (seed : AGrid)
    (hW : 3 ≤ width) (hH : 3 ≤ height)
    (hseed : ∀ a b, a < width → b < height → seed a b = Tile.floor) :
    ∀ k a b, a < width → b < height → ¬(a = width - 1 ∧ b = height - 1) →
      ((doRound width height)^[k] seed) a b = Tile.floor := by
  intro k
  induction k with
  | zero => intro a b ha hb _; exact hseed a b ha hb
  | succ m ih =>
    intro a b ha hb hne
    rw [Function.iterate_succ_apply']
    exact doRound_preserves_nonCorner width height _ hW hH ih a b ha hb hne

/-- C5: with `fill_percentage = 1.0` every cell is seeded Floor (every
uniform draw is below 1), and for every `number_of_rounds >= 1` every
interior cell — one whose whole Moore neighborhood lies inside the
bounds — is Floor in the grid the engine ends up with; moreover every
interior cell is Floor in the seed and stays Floor after every round of
the trajectory. -/
theorem automaton_saturation_interior (width height n : ℕ)
    (draws : ℕ → ℕ → ℚ) (x y : ℕ)
    (hn : 1 ≤ n)
    (hd : ∀ a b, 0 ≤ draws a b ∧ draws a b < 1)
    (hx1 : 1 ≤ x) (hx2 : x + 1 < width) (hy1 : 1 ≤ y) (hy2 : y + 1 < height) :
    atomatonResult width height n (fillGrid draws 1) x y = Tile.floor ∧
    ∀ k, ((doRound width height)^[k] (fillGrid draws 1)) x y = Tile.floor := by
  have hW : 3 ≤ width := by omega
  have hH : 3 ≤ height := by omega
  have hseed : ∀ a b, a < width → b < height → fillGrid draws 1 a b = Tile.floor := by
    intro a b _ _
    unfold fillGrid
    rw [if_pos (hd a b).2]
  have hinv := iterate_preserves_nonCorner width height (fillGrid draws 1) hW hH hseed
  have hne : ¬(x = width - 1 ∧ y = height - 1) := by omega
  constructor
  · rw [atomatonResult_eq_iterate width height n _ hn]
    exact hinv (n - 1) x y (by omega) (by omega) hne
  · intro k
    exact hinv k x y (by omega) (by omega) hne

/-- C5 witness: a concrete saturated run, 3x3 area with all draws 0 and
one round; the interior cell (1, 1) is Floor in the result and along
the trajectory. -/
theorem automaton_saturation_interior_witness :
    atomatonResult 3 3 1 (fillGrid (fun _ _ => 0) 1) 1 1 = Tile.floor ∧
    ∀ k, ((doRound 3 3)^[k] (fillGrid (fun _ _ => 0) 1)) 1 1 = Tile.floor :=
  automaton_saturation_interior 3 3 1 (fun _ _ => 0) 1 1 (by decide)
    (fun _ _ => ⟨le_refl 0, by norm_num⟩) (by decide) (by decide) (by decide) (by decide)

/-!
Rooms and the accumulation loop of `RoomGenerator.generate`
(`map/generator/room.py`).  A room is treated through the interface the
generator uses: its bounding rectangle and its list of walkable points.
-/

/-- A generated room (`map/room.py`): the claims only use its bounds
and its walkable points. -/
structure Room where
  bounds : Rect
  walkable : List Point
deriving DecidableEq, Repr

/-- The accumulation loop of `RoomGenerator.generate`: walk the
candidate rectangles in order, carve each with
`room_method.room_in_rect`, stop the whole loop at the first `None`
(`if not room: break`), and collect the carved rooms. -/
def generateRooms (roomInRect : Rect → Option Room) : List Rect → List Room
  | [] => []
  | r :: rs =>
    match roomInRect r with
    | none => []
    | some room => room :: generateRooms roomInRect rs

/-- C4: when the carver returns `None` on the k-th candidate, the
accumulated room list is exactly the rooms carved from the first k-1
candidates, and the result does not depend on the candidates after the
k-th: the `break` is a hard stop of the whole accumulation, not a skip
of one rectangle. -/
theorem carver_none_is_hard_stop (roomInRect : Rect → Option Room)
    (pre post : List Rect) (r : Rect)
    (hpre : ∀ x ∈ pre, (roomInRect x).isSome)
    (hr : roomInRect r = none) :
    generateRooms roomInRect (pre ++ r :: post) = pre.filterMap roomInRect ∧
    generateRooms roomInRect (pre ++ r :: post) =
      generateRooms roomInRect (pre ++ [r]) := by
  induction pre with
  | nil =>
    simp [generateRooms, hr]
  | cons x xs ih =>
    have hx : (roomInRect x).isSome := hpre x (by simp)
    rcases Option.isSome_iff_exists.mp hx with ⟨room, hroom⟩
    have ih2 := ih (fun z hz => hpre z (by simp [hz]))
    constructor
    · simpa [generateRooms, hroom, List.filterMap_cons] using ih2.1
    · simpa [generateRooms, hroom] using ih2.2

/-- C4 witness: a carver that refuses width-0 rectangles, one good
candidate, then a refused one, then another good one; only the first
room is produced and the third candidate is never consulted. -/
theorem carver_none_is_hard_stop_witness :
    generateRooms
        (fun rect => if rect.size.width = 0 then none else some ⟨rect, []⟩)
        ([⟨⟨0, 0⟩, ⟨4, 4⟩⟩] ++ ⟨⟨9, 9⟩, ⟨0, 3⟩⟩ :: [⟨⟨5, 5⟩, ⟨4, 4⟩⟩]) =
      List.filterMap
        (fun rect => if rect.size.width = 0 then none else some ⟨rect, []⟩)
        [⟨⟨0, 0⟩, ⟨4, 4⟩⟩] ∧
    generateRooms
        (fun rect => if rect.size.width = 0 then none else some ⟨rect, []⟩)
        ([⟨⟨0, 0⟩, ⟨4, 4⟩⟩] ++ ⟨⟨9, 9⟩, ⟨0, 3⟩⟩ :: [⟨⟨5, 5⟩, ⟨4, 4⟩⟩]) =
      generateRooms
        (fun rect => if rect.size.width = 0 then none else some ⟨rect, []⟩)
        ([⟨⟨0, 0⟩, ⟨4, 4⟩⟩] ++ [⟨⟨9, 9⟩, ⟨0, 3⟩⟩]) :=
  carver_none_is_hard_stop _ [⟨⟨0, 0⟩, ⟨4, 4⟩⟩] [⟨⟨5, 5⟩, ⟨4, 4⟩⟩] ⟨⟨9, 9⟩, ⟨0, 3⟩⟩
    (by intro x hx; simp only [List.mem_singleton] at hx; subst hx; decide) (by decide)

/-!
Discrete line tracing.  `ElbowCorridorGenerator._generate_corridor_between`
calls `tcod.los.bresenham(start, end)`, the classic integer Bresenham
algorithm returning every grid point of the line, both endpoints
included.  We embed it with explicit fuel; the fuel provided by
`bresenham` below covers the full trace (on the axis-aligned segments
used by the elbow router this is proved exactly).
-/

/-- Loop body of the integer Bresenham algorithm: emit the current
point, stop at the target, otherwise advance along x and/or y by the
accumulated-error rule. -/
def bresLoop (x1 y1 sx sy dx dy : ℤ) (fuel : ℕ) (x y err : ℤ) : List (ℤ × ℤ) :=
  match fuel with
  | 0 => [(x, y)]
  | fuel + 1 =>
    if x = x1 ∧ y = y1 then [(x, y)]
    else
      let e2 := 2 * err
      let x2 := if e2 ≥ dy then x + sx else x
      let err2 := if e2 ≥ dy then err + dy else err
      let y2 := if e2 ≤ dx then y + sy else y
      let err3 := if e2 ≤ dx then err2 + dx else err2
      (x, y) :: bresLoop x1 y1 sx sy dx dy fuel x2 y2 err3

/-- Bresenham line from `(x0, y0)` to `(x1, y1)`, both endpoints
included (model of `tcod.los.bresenham`). -/
def bresenham (x0 y0 x1 y1 : ℤ) : List (ℤ × ℤ) :=
  let dx : ℤ := ((x1 - x0).natAbs : ℤ)
  let dy : ℤ := -((y1 - y0).natAbs : ℤ)
  let sx : ℤ := if x0 < x1 then 1 else -1
  let sy : ℤ := if y0 < y1 then 1 else -1
  bresLoop x1 y1 sx sy dx dy ((x1 - x0).natAbs + (y1 - y0).natAbs + 1) x0 y0 (dx + dy)

theorem bresLoop_horiz (x1 y sx sy DX : ℤ) (hDX : 0 < DX) (hsx : sx = 1 ∨ sx = -1) :
    ∀ (d : ℕ) (fuel : ℕ) (x : ℤ), x1 = x + d * sx → d < fuel →
      bresLoop x1 y sx sy DX 0 fuel x y DX =
        (List.range (d + 1)).map (fun i : ℕ => (x + (i : ℤ) * sx, y)) := by
  intro d
  induction d with
  | zero =>
    intro fuel x hx hfuel
    match fuel, hfuel with
    | fuel + 1, _ =>
      have hx1 : x = x1 := by omega
      simp [bresLoop, hx1, List.range_succ]
  | succ m ih =>
    intro fuel x hx hfuel
    match fuel, hfuel with
    | fuel + 1, hfuel =>
      have hxne : ¬(x = x1 ∧ y = y) := by
        rintro ⟨h, -⟩
        rcases hsx with h1 | h1 <;> subst h1 <;> omega
      rw [bresLoop, if_neg hxne]
      have hcond1 : (2 * DX ≥ (0 : ℤ)) = True := by simp; omega
      have hcond2 : (2 * DX ≤ DX) = False := by simp; omega
      simp only [hcond1, hcond2, if_true, if_false, add_zero]
      have hrec := ih fuel (x + sx) (by push_cast at hx; linarith) (by omega)
      rw [hrec]
      conv_rhs => rw [List.range_succ_eq_map]
      simp only [List.map_cons, List.map_map, Nat.cast_zero, zero_mul, add_zero,
        List.cons.injEq]
      refine ⟨trivial, ?_⟩
      apply List.map_congr_left
      intro i _
      simp only [Function.comp_apply, Prod.mk.injEq]
      exact ⟨by push_cast; ring, trivial⟩

theorem bresLoop_vert (x y1 sx sy DY : ℤ) (hDY : 0 < DY) (hsy : sy = 1 ∨ sy = -1) :
    ∀ (d : ℕ) (fuel : ℕ) (y : ℤ), y1 = y + d * sy → d < fuel →
      bresLoop x y1 sx sy 0 (-DY) fuel x y (-DY) =
        (List.range (d + 1)).map (fun i : ℕ => (x, y + (i : ℤ) * sy)) := by
  intro d
  induction d with
  | zero =>
    intro fuel y hy hfuel
    match fuel, hfuel with
    | fuel + 1, _ =>
      have hy1 : y = y1 := by omega
      simp [bresLoop, hy1, List.range_succ]
  | succ m ih =>
    intro fuel y hy hfuel
    match fuel, hfuel with
    | fuel + 1, hfuel =>
      have hyne : ¬(x = x ∧ y = y1) := by
        rintro ⟨-, h⟩
        rcases hsy with h1 | h1 <;> subst h1 <;> omega
      rw [bresLoop, if_neg hyne]
      have hcond1 : (2 * -DY ≥ -DY) = False := by simp; omega
      have hcond2 : (2 * -DY ≤ (0 : ℤ)) = True := by simp; omega
      simp only [hcond1, hcond2, if_true, if_false, add_zero]
      have hrec := ih fuel (y + sy) (by push_cast at hy; linarith) (by omega)
      rw [hrec]
      conv_rhs => rw [List.range_succ_eq_map]
      simp only [List.map_cons, List.map_map, Nat.cast_zero, zero_mul, add_zero,
        List.cons.injEq]
      refine ⟨trivial, ?_⟩
      apply List.map_congr_left
      intro i _
      simp only [Function.comp_apply, Prod.mk.injEq]
      exact ⟨trivial, by push_cast; ring⟩

/-- A horizontal Bresenham trace is exactly the horizontal segment,
start to end inclusive, one step at a time. -/
theorem bresenham_horiz (x0 x1 y : ℤ) :
    bresenham x0 y x1 y =
      (List.range ((x1 - x0).natAbs + 1)).map
        (fun i : ℕ => (x0 + (i : ℤ) * (if x0 < x1 then 1 else -1), y)) := by
  unfold bresenham
  simp only [sub_self, Int.natAbs_zero, Nat.cast_zero, neg_zero, add_zero, Nat.add_zero]
  by_cases hx : x0 = x1
  · subst hx
    simp only [sub_self, Int.natAbs_zero, Nat.cast_zero, Nat.zero_add, lt_self_iff_false,
      if_false]
    rw [bresLoop]
    simp [List.range_succ]
  · have hDX : 0 < ((x1 - x0).natAbs : ℤ) := by
      have : x1 - x0 ≠ 0 := by omega
      have := Int.natAbs_pos.mpr this
      exact_mod_cast this
    apply bresLoop_horiz x1 y _ _ ((x1 - x0).natAbs : ℤ) hDX
    · split <;> simp
    · rcases lt_or_gt_of_ne hx with h | h
      · rw [if_pos h]
        have : ((x1 - x0).natAbs : ℤ) = x1 - x0 := by
          rw [Int.natAbs_of_nonneg (by omega)]
        omega
      · rw [if_neg (by omega)]
        have : ((x1 - x0).natAbs : ℤ) = -(x1 - x0) := by
          rw [Int.ofNat_natAbs_of_nonpos (by omega)]
        omega
    · omega

/-- A vertical Bresenham trace is exactly the vertical segment, start
to end inclusive, one step at a time. -/
theorem bresenham_vert (x y0 y1 : ℤ) :
    bresenham x y0 x y1 =
      (List.range ((y1 - y0).natAbs + 1)).map
        (fun i : ℕ => (x, y0 + (i : ℤ) * (if y0 < y1 then 1 else -1))) := by
  unfold bresenham
  simp only [sub_self, Int.natAbs_zero, Nat.cast_zero, Nat.zero_add]
  by_cases hy : y0 = y1
  · subst hy
    simp only [sub_self, Int.natAbs_zero, Nat.cast_zero, neg_zero, add_zero,
      lt_self_iff_false, if_false]
    rw [bresLoop]
    simp [List.range_succ]
  · have hDY : 0 < ((y1 - y0).natAbs : ℤ) := by
      have : y1 - y0 ≠ 0 := by omega
      have := Int.natAbs_pos.mpr this
      exact_mod_cast this
    have hz : (0 : ℤ) + -((y1 - y0).natAbs : ℤ) = -((y1 - y0).natAbs : ℤ) := by ring
    rw [hz]
    apply bresLoop_vert x y1 _ _ ((y1 - y0).natAbs : ℤ) hDY
    · split <;> simp
    · rcases lt_or_gt_of_ne hy with h | h
      · rw [if_pos h]
        have : ((y1 - y0).natAbs : ℤ) = y1 - y0 := by
          rw [Int.natAbs_of_nonneg (by omega)]
        omega
      · rw [if_neg (by omega)]
        have : ((y1 - y0).natAbs : ℤ) = -(y1 - y0) := by
          rw [Int.ofNat_natAbs_of_nonpos (by omega)]
        omega
    · omega

/-!
Elbow corridor routing (`ElbowCorridorGenerator._generate_corridor_between`).
-/

/-- Elbow corner: with the 50/50 draw below one half the router moves
horizontally first, so the corner takes the x of the end point and the
y of the start point; otherwise the other way around. -/
def elbowCorner (leftBounds rightBounds : Rect) (draw : ℚ) : Point :=
  if draw < 1 / 2 then ⟨rightBounds.midpoint.x, leftBounds.midpoint.y⟩
  else ⟨leftBounds.midpoint.x, rightBounds.midpoint.y⟩

/-- Corridor produced by `_generate_corridor_between`: the Bresenham
trace from the start midpoint to the corner, followed by the trace from
the corner to the end midpoint, point sequences concatenated as
returned. -/
def elbowCorridorBetween (leftBounds rightBounds : Rect) (draw : ℚ) : List Point :=
  (bresenham leftBounds.midpoint.x leftBounds.midpoint.y
      (elbowCorner leftBounds rightBounds draw).x
      (elbowCorner leftBounds rightBounds draw).y).map (fun p => Point.mk p.1 p.2) ++
  (bresenham (elbowCorner leftBounds rightBounds draw).x
      (elbowCorner leftBounds rightBounds draw).y
      rightBounds.midpoint.x rightBounds.midpoint.y).map (fun p => Point.mk p.1 p.2)

/-- `c` lies between `a` and `b` inclusive. -/
def betweenInt (a b c : ℤ) : Prop := min a b ≤ c ∧ c ≤ max a b

/-- Membership in the L-path from `s` to `e` whose corner is
`(e.x, s.y)` (horizontal leg first). -/
def onLPathA (s e p : Point) : Prop :=
  (p.y = s.y ∧ betweenInt s.x e.x p.x) ∨ (p.x = e.x ∧ betweenInt s.y e.y p.y)

/-- Membership in the L-path from `s` to `e` whose corner is
`(s.x, e.y)` (vertical leg first). -/
def onLPathB (s e p : Point) : Prop :=
  (p.x = s.x ∧ betweenInt s.y e.y p.y) ∨ (p.y = e.y ∧ betweenInt s.x e.x p.x)

theorem mem_horiz_map (x0 x1 y : ℤ) (q : Point)
    (hq : q ∈ (bresenham x0 y x1 y).map (fun p => Point.mk p.1 p.2)) :
    q.y = y ∧ betweenInt x0 x1 q.x := by
  rw [bresenham_horiz, List.map_map] at hq
  rcases List.mem_map.mp hq with ⟨i, hi, rfl⟩
  rw [List.mem_range] at hi
  refine ⟨rfl, ?_, ?_⟩
  all_goals simp only [Function.comp_apply]
  all_goals split_ifs <;> omega

theorem mem_vert_map (x y0 y1 : ℤ) (q : Point)
    (hq : q ∈ (bresenham x y0 x y1).map (fun p => Point.mk p.1 p.2)) :
    q.x = x ∧ betweenInt y0 y1 q.y := by
  rw [bresenham_vert, List.map_map] at hq
  rcases List.mem_map.mp hq with ⟨i, hi, rfl⟩
  rw [List.mem_range] at hi
  refine ⟨rfl, ?_, ?_⟩
  all_goals simp only [Function.comp_apply]
  all_goals split_ifs <;> omega

theorem count_horiz_map (x0 x1 y xt : ℤ) (i0 : ℕ)
    (hi0 : i0 < (x1 - x0).natAbs + 1)
    (hxt : xt = x0 + (i0 : ℤ) * (if x0 < x1 then 1 else -1)) :
    ((bresenham x0 y x1 y).map (fun p => Point.mk p.1 p.2)).count ⟨xt, y⟩ = 1 := by
  rw [bresenham_horiz, List.map_map]
  have hinj : Function.Injective
      ((fun p : ℤ × ℤ => Point.mk p.1 p.2) ∘
        (fun i : ℕ => (x0 + (i : ℤ) * (if x0 < x1 then 1 else -1), y))) := by
    intro a b hab
    simp only [Function.comp_apply, Point.mk.injEq] at hab
    split_ifs at hab <;> omega
  have heq : (⟨xt, y⟩ : Point) =
      ((fun p : ℤ × ℤ => Point.mk p.1 p.2) ∘
        (fun i : ℕ => (x0 + (i : ℤ) * (if x0 < x1 then 1 else -1), y))) i0 := by
    simp only [Function.comp_apply, Point.mk.injEq]
    exact ⟨hxt, trivial⟩
  rw [heq]
  have hcnt := List.count_map_of_injective
    (List.range ((x1 - x0).natAbs + 1))
    ((fun p : ℤ × ℤ => Point.mk p.1 p.2) ∘
      (fun i : ℕ => (x0 + (i : ℤ) * (if x0 < x1 then 1 else -1), y))) hinj i0
  rw [hcnt]
  exact List.count_eq_one_of_mem (List.nodup_range _) (List.mem_range.mpr hi0)

theorem count_vert_map (x y0 y1 yt : ℤ) (i0 : ℕ)
    (hi0 : i0 < (y1 - y0).natAbs + 1)
    (hyt : yt = y0 + (i0 : ℤ) * (if y0 < y1 then 1 else -1)) :
    ((bresenham x y0 x y1).map (fun p => Point.mk p.1 p.2)).count ⟨x, yt⟩ = 1 := by
  rw [bresenham_vert, List.map_map]
  have hinj : Function.Injective
      ((fun p : ℤ × ℤ => Point.mk p.1 p.2) ∘
        (fun i : ℕ => (x, y0 + (i : ℤ) * (if y0 < y1 then 1 else -1)))) := by
    intro a b hab
    simp only [Function.comp_apply, Point.mk.injEq] at hab
    split_ifs at hab <;> omega
  have heq : (⟨x, yt⟩ : Point) =
      ((fun p : ℤ × ℤ => Point.mk p.1 p.2) ∘
        (fun i : ℕ => (x, y0 + (i : ℤ) * (if y0 < y1 then 1 else -1)))) i0 := by
    simp only [Function.comp_apply, Point.mk.injEq]
    exact ⟨trivial, hyt⟩
  rw [heq]
  have hcnt := List.count_map_of_injective
    (List.range ((y1 - y0).natAbs + 1))
    ((fun p : ℤ × ℤ => Point.mk p.1 p.2) ∘
      (fun i : ℕ => (x, y0 + (i : ℤ) * (if y0 < y1 then 1 else -1)))) hinj i0
  rw [hcnt]
  exact List.count_eq_one_of_mem (List.nodup_range _) (List.mem_range.mpr hi0)

/-- C7: the corridor between two rooms is the concatenation of the
Bresenham trace from the first bounds midpoint to the elbow corner and
the trace from that corner to the second bounds midpoint; the corner is
either `(end.x, start.y)` or `(start.x, end.y)`; every corridor point
lies on one of the two legal L-paths between the midpoints; and the
corner point occurs exactly twice in the corridor (once ending the
first trace, once starting the second, not deduplicated). -/
theorem elbow_corridor_structure (leftBounds rightBounds : Rect) (draw : ℚ) :
    elbowCorridorBetween leftBounds rightBounds draw =
      (bresenham leftBounds.midpoint.x leftBounds.midpoint.y
          (elbowCorner leftBounds rightBounds draw).x
          (elbowCorner leftBounds rightBounds draw).y).map (fun p => Point.mk p.1 p.2) ++
      (bresenham (elbowCorner leftBounds rightBounds draw).x
          (elbowCorner leftBounds rightBounds draw).y
          rightBounds.midpoint.x rightBounds.midpoint.y).map (fun p => Point.mk p.1 p.2) ∧
    (elbowCorner leftBounds rightBounds draw =
        ⟨rightBounds.midpoint.x, leftBounds.midpoint.y⟩ ∨
      elbowCorner leftBounds rightBounds draw =
        ⟨leftBounds.midpoint.x, rightBounds.midpoint.y⟩) ∧
    (∀ p ∈ elbowCorridorBetween leftBounds rightBounds draw,
        onLPathA leftBounds.midpoint rightBounds.midpoint p ∨
        onLPathB leftBounds.midpoint rightBounds.midpoint p) ∧
    (elbowCorridorBetween leftBounds rightBounds draw).count
        (elbowCorner leftBounds rightBounds draw) = 2 := by
  by_cases hd : draw < 1 / 2
  · have hc : elbowCorner leftBounds rightBounds draw =
        ⟨rightBounds.midpoint.x, leftBounds.midpoint.y⟩ := by
      unfold elbowCorner
      rw [if_pos hd]
    refine ⟨rfl, Or.inl hc, ?_, ?_⟩
    · intro p hp
      left
      unfold elbowCorridorBetween at hp
      rw [hc] at hp
      rcases List.mem_append.mp hp with h | h
      · exact Or.inl (mem_horiz_map _ _ _ _ h)
      · exact Or.inr (mem_vert_map _ _ _ _ h)
    · unfold elbowCorridorBetween
      rw [hc]
      rw [List.count_append]
      rw [count_horiz_map leftBounds.midpoint.x rightBounds.midpoint.x
          leftBounds.midpoint.y rightBounds.midpoint.x
          ((rightBounds.midpoint.x - leftBounds.midpoint.x).natAbs)
          (by omega) (by split_ifs <;> omega)]
      rw [count_vert_map rightBounds.midpoint.x leftBounds.midpoint.y
          rightBounds.midpoint.y leftBounds.midpoint.y 0 (by omega) (by simp)]
  · have hc : elbowCorner leftBounds rightBounds draw =
        ⟨leftBounds.midpoint.x, rightBounds.midpoint.y⟩ := by
      unfold elbowCorner
      rw [if_neg hd]
    refine ⟨rfl, Or.inr hc, ?_, ?_⟩
    · intro p hp
      right
      unfold elbowCorridorBetween at hp
      rw [hc] at hp
      rcases List.mem_append.mp hp with h | h
      · exact Or.inl (mem_vert_map _ _ _ _ h)
      · exact Or.inr (mem_horiz_map _ _ _ _ h)
    · unfold elbowCorridorBetween
      rw [hc]
      rw [List.count_append]
      rw [count_vert_map leftBounds.midpoint.x leftBounds.midpoint.y
          rightBounds.midpoint.y rightBounds.midpoint.y
          ((rightBounds.midpoint.y - leftBounds.midpoint.y).natAbs)
          (by omega) (by split_ifs <;> omega)]
      rw [count_horiz_map leftBounds.midpoint.x rightBounds.midpoint.x
          rightBounds.midpoint.y leftBounds.midpoint.x 0 (by omega) (by simp)]

/-!
Python `sorted` as used by `CorridorGenerator._sorted_rooms`:
`sorted(rooms, key=lambda r: r.bounds.origin)`.  For lists below the
Timsort run threshold CPython sorts by stable binary insertion: each
element is inserted into the sorted prefix at the position found by a
binary search that sends the pivot left exactly when the comparison `pivot < element`
holds under `Point.__lt__`.  We model that binary insertion sort; the
comparison is only a partial order, so elements with incomparable keys
keep their relative input order.
-/

/-- Binary search of the CPython binary insertion sort: narrow
`[lo, hi)` with midpoint comparisons `pivot < xs[mid]` until empty; the
fuel argument bounds the recursion depth and `hi - lo` always
suffices. -/
def binsortPosAux {α : Type} (ltb : α → α → Bool) (pivot : α) (xs : List α) :
    ℕ → ℕ → ℕ → ℕ
  | 0, lo, _ => lo
  | fuel + 1, lo, hi =>
    if lo < hi then
      if ltb pivot (xs.getD ((lo + hi) / 2) pivot) then
        binsortPosAux ltb pivot xs fuel lo ((lo + hi) / 2)
      else
        binsortPosAux ltb pivot xs fuel (((lo + hi) / 2) + 1) hi
    else lo

/-- Stable insertion position of `pivot` in the sorted prefix `xs`. -/
def binsortPos {α : Type} (ltb : α → α → Bool) (pivot : α) (xs : List α) : ℕ :=
  binsortPosAux ltb pivot xs xs.length 0 xs.length

/-- Insert `x` at position `p` of a list. -/
def insertAt {α : Type} : ℕ → α → List α → List α
  | 0, x, l => x :: l
  | _ + 1, x, [] => [x]
  | p + 1, x, a :: l => a :: insertAt p x l

/-- One step of the binary insertion sort. -/
def binInsert {α : Type} (ltb : α → α → Bool) (x : α) (acc : List α) : List α :=
  insertAt (binsortPos ltb x acc) x acc

/-- Stable binary insertion sort, the CPython `sorted` on short lists. -/
def pySorted {α : Type} (ltb : α → α → Bool) (xs : List α) : List α :=
  xs.foldl (fun acc x => binInsert ltb x acc) []

/-- `CorridorGenerator._sorted_rooms`: sort the rooms with the bounds
origin as the key, compared by `Point.__lt__`. -/
def sortedRooms (rooms : List Room) : List Room :=
  pySorted (fun a b => pointLt a.bounds.origin b.bounds.origin) rooms

theorem binsortPosAux_spec {α : Type} (ltb : α → α → Bool) (pivot : α) (xs : List α) :
    ∀ (fuel lo hi : ℕ), hi - lo ≤ fuel → lo ≤ hi → hi ≤ xs.length →
      (lo = 0 ∨ ltb pivot (xs.getD (lo - 1) pivot) = false) →
      (hi = xs.length ∨ ltb pivot (xs.getD hi pivot) = true) →
      lo ≤ binsortPosAux ltb pivot xs fuel lo hi ∧
      binsortPosAux ltb pivot xs fuel lo hi ≤ hi ∧
      (binsortPosAux ltb pivot xs fuel lo hi = 0 ∨
        ltb pivot (xs.getD (binsortPosAux ltb pivot xs fuel lo hi - 1) pivot) = false) ∧
      (binsortPosAux ltb pivot xs fuel lo hi = xs.length ∨
        ltb pivot (xs.getD (binsortPosAux ltb pivot xs fuel lo hi) pivot) = true) := by
  intro fuel
  induction fuel with
  | zero =>
    intro lo hi hfuel hlohi hhi hleft hright
    have : lo = hi := by omega
    subst this
    exact ⟨le_refl _, le_refl _, hleft, hright⟩
  | succ f ih =>
    intro lo hi hfuel hlohi hhi hleft hright
    rw [binsortPosAux]
    by_cases hlt : lo < hi
    · rw [if_pos hlt]
      by_cases hcmp : ltb pivot (xs.getD ((lo + hi) / 2) pivot) = true
      · rw [if_pos hcmp]
        have h := ih lo ((lo + hi) / 2) (by omega) (by omega) (by omega) hleft
          (Or.inr hcmp)
        exact ⟨h.1, by omega, h.2.2⟩
      · rw [if_neg hcmp]
        have hcmp2 : ltb pivot (xs.getD ((lo + hi) / 2) pivot) = false :=
          Bool.eq_false_iff.mpr hcmp
        have h := ih (((lo + hi) / 2) + 1) hi (by omega) (by omega) hhi
          (Or.inr (by simpa using hcmp2)) hright
        exact ⟨by omega, h.2.1, h.2.2⟩
    · rw [if_neg hlt]
      have : lo = hi := by omega
      subst this
      exact ⟨le_refl _, le_refl _, hleft, hright⟩

theorem insertAt_chain {α : Type} (R : α → α → Prop) (x : α) :
    ∀ (acc : List α) (p : ℕ), p ≤ acc.length → List.Chain' R acc →
      (p = 0 ∨ R (acc.getD (p - 1) x) x) →
      (p = acc.length ∨ R x (acc.getD p x)) →
      List.Chain' R (insertAt p x acc) := by
  intro acc
  induction acc with
  | nil =>
    intro p hp _ _ _
    have : p = 0 := by simpa using hp
    subst this
    simp [insertAt]
  | cons a l ih =>
    intro p hp hacc hleft hright
    match p with
    | 0 =>
      rcases hright with h | h
      · simp at h
      · rw [insertAt]
        rw [List.chain'_cons']
        exact ⟨fun y hy => by simp at hy; subst hy; exact h, hacc⟩
    | q + 1 =>
      rw [insertAt]
      rw [List.chain'_cons']
      constructor
      · intro y hy
        match q, l with
        | 0, l =>
          simp only [insertAt] at hy
          simp at hy
          subst hy
          rcases hleft with h | h
          · omega
          · simpa using h
        | q + 1, [] => simp at hp
        | q + 1, b :: l =>
          simp only [insertAt] at hy
          simp at hy
          subst hy
          exact (List.chain'_cons.mp hacc).1
      · apply ih q (by simpa using hp) hacc.tail
        · match q with
          | 0 => exact Or.inl rfl
          | r + 1 =>
            rcases hleft with h | h
            · omega
            · exact Or.inr (by simpa using h)
        · rcases hright with h | h
          · exact Or.inl (by simpa using h)
          · exact Or.inr (by simpa using h)

theorem insertAt_perm {α : Type} (x : α) :
    ∀ (acc : List α) (p : ℕ), (insertAt p x acc).Perm (x :: acc) := by
  intro acc
  induction acc with
  | nil =>
    intro p
    match p with
    | 0 => exact List.Perm.refl _
    | q + 1 => exact List.Perm.refl _
  | cons a l ih =>
    intro p
    match p with
    | 0 => exact List.Perm.refl _
    | q + 1 =>
      rw [insertAt]
      exact ((ih q).cons a).trans (List.Perm.swap x a l)

theorem binInsert_chain {α : Type} (ltb : α → α → Bool)
    (hasym : ∀ a b, ltb a b = true → ltb b a = false)
    (x : α) (acc : List α)
    (hacc : List.Chain' (fun a b => ltb b a = false) acc) :
    List.Chain' (fun a b => ltb b a = false) (binInsert ltb x acc) := by
  have hspec := binsortPosAux_spec ltb x acc acc.length 0 acc.length
    (by omega) (by omega) (le_refl _) (Or.inl rfl) (Or.inl rfl)
  rcases hspec with ⟨-, hle, hL, hR⟩
  apply insertAt_chain _ x acc _ hle hacc
  · rcases hL with h | h
    · exact Or.inl h
    · exact Or.inr h
  · rcases hR with h | h
    · exact Or.inl h
    · exact Or.inr (hasym _ _ h)

theorem pySorted_chain {α : Type} (ltb : α → α → Bool)
    (hasym : ∀ a b, ltb a b = true → ltb b a = false) (xs : List α) :
    List.Chain' (fun a b => ltb b a = false) (pySorted ltb xs) := by
  suffices h : ∀ acc, List.Chain' (fun a b => ltb b a = false) acc →
      List.Chain' (fun a b => ltb b a = false)
        (xs.foldl (fun acc x => binInsert ltb x acc) acc) by
    exact h [] (by simp)
  induction xs with
  | nil => intro acc hacc; exact hacc
  | cons x xs ih =>
    intro acc hacc
    exact ih _ (binInsert_chain ltb hasym x acc hacc)

theorem pySorted_perm {α : Type} (ltb : α → α → Bool) (xs : List α) :
    (pySorted ltb xs).Perm xs := by
  suffices h : ∀ acc, (xs.foldl (fun acc x => binInsert ltb x acc) acc).Perm (acc ++ xs) by
    simpa using h []
  induction xs with
  | nil => intro acc; simp
  | cons x xs ih =>
    intro acc
    refine ((ih _).trans ?_)
    have h1 : (binInsert ltb x acc).Perm (x :: acc) := insertAt_perm x acc _
    refine ((h1.append_right xs).trans ?_)
    exact List.perm_middle.symm

theorem pointLt_asymm (a b : Point) (h : pointLt a b = true) : pointLt b a = false := by
  unfold pointLt at h ⊢
  simp only [Bool.and_eq_true, decide_eq_true_eq] at h
  simp only [Bool.and_eq_false_iff, decide_eq_false_iff_not]
  omega

/-- C9 counterexample: two rooms whose origins (0,1) and (1,0) are
incomparable under `Point.__lt__`.  Sorting keeps either input order,
so the processing order is not a function of the room set, and the
adjacent pair in processing order does not satisfy the origin
ordering. -/
theorem sorted_rooms_not_function_of_set :
    sortedRooms [⟨⟨⟨0, 1⟩, ⟨3, 3⟩⟩, []⟩, ⟨⟨⟨1, 0⟩, ⟨3, 3⟩⟩, []⟩] =
      [⟨⟨⟨0, 1⟩, ⟨3, 3⟩⟩, []⟩, ⟨⟨⟨1, 0⟩, ⟨3, 3⟩⟩, []⟩] ∧
    sortedRooms [⟨⟨⟨1, 0⟩, ⟨3, 3⟩⟩, []⟩, ⟨⟨⟨0, 1⟩, ⟨3, 3⟩⟩, []⟩] =
      [⟨⟨⟨1, 0⟩, ⟨3, 3⟩⟩, []⟩, ⟨⟨⟨0, 1⟩, ⟨3, 3⟩⟩, []⟩] ∧
    pointLt ⟨0, 1⟩ ⟨1, 0⟩ = false ∧
    (⟨⟨⟨0, 1⟩, ⟨3, 3⟩⟩, []⟩ : Room) ≠ ⟨⟨⟨1, 0⟩, ⟨3, 3⟩⟩, []⟩ := by
  refine ⟨by decide, by decide, by decide, by decide⟩

/-- C9 amended: the processing order of the Elbow router is the stable
sort of the accumulated room list under `Point.__lt__` on bounds
origins, which is only a partial order; the sorted list is a
permutation of the input, and for any two rooms adjacent in processing
order the later origin is never strictly below-and-left of the earlier
one — but rooms with incomparable origins keep their accumulation
order, so the result is a function of the accumulated list, not of the
room set. -/
theorem sorted_rooms_stable_partial_order (rooms : List Room) :
    (sortedRooms rooms).Perm rooms ∧
    List.Chain' (fun a b => pointLt b.bounds.origin a.bounds.origin = false)
      (sortedRooms rooms) :=
  ⟨pySorted_perm _ rooms,
   pySorted_chain _ (fun _ _ h => pointLt_asymm _ _ h) rooms⟩

/-!
Orchestration (`RoomGenerator.generate`, `RoomsAndCorridorsGenerator.generate`,
`ElbowCorridorGenerator.generate`).  `RoomsAndCorridorsGenerator.generate`
invokes `corridor_generator.generate(self.room_generator.rooms)`,
passing the plain Python list of rooms, while
`ElbowCorridorGenerator.generate(map)` begins with the attribute lookup
`map.rooms`.  A Python list instance defines no attribute `rooms`, so
that lookup raises AttributeError.  The tile-stamping calls
(`room_generator.apply`, `corridor_generator.apply`) only write tiles
into the map and contribute nothing to the room, stair, corridor or
exception outcomes; the second one is never reached.
-/

/-- A corridor (`map/room.py`, class `Corridor`): an ordered list of
points. -/
structure Corridor where
  points : List Point
deriving DecidableEq, Repr

/-- Python exceptions raised by the modelled code. -/
inductive PyError where
  | attributeError (message : String)
  | valueError (message : String)
deriving DecidableEq, Repr

/-- The value bound to the `map` parameter of
`CorridorGenerator.generate` at its one call site: the plain Python
list `self.room_generator.rooms`. -/
inductive PyMapArg where
  | roomList (rooms : List Room)
deriving DecidableEq, Repr

/-- The attribute lookup `map.rooms` performed first thing by
`ElbowCorridorGenerator.generate`: a list instance defines no attribute
`rooms`, so the lookup raises AttributeError. -/
def pyMapArgRoomsAttr : PyMapArg → Except PyError (List Room)
  | .roomList _ =>
    .error (.attributeError "list object has no attribute rooms")

/-- `itertools.pairwise`. -/
def pairwiseList {α : Type} : List α → List (α × α)
  | a :: b :: rest => (a, b) :: pairwiseList (b :: rest)
  | _ => []

/-- `ElbowCorridorGenerator.generate`: read `map.rooms`; if fewer than
two rooms, do nothing; otherwise build one corridor per consecutive
pair of the sorted rooms, one elbow draw per pair. -/
def elbowGenerate (mapArg : PyMapArg) (corridorDraws : ℕ → ℚ) :
    Except PyError (List Corridor) := do
  let rooms ← pyMapArgRoomsAttr mapArg
  if rooms.length < 2 then
    pure []
  else
    pure (((pairwiseList (sortedRooms rooms)).enum).map
      (fun pr => ⟨elbowCorridorBetween pr.2.1.bounds pr.2.2.bounds (corridorDraws pr.1)⟩))

/-- `random.choice` on a list of points: uniform index draw reduced
modulo the length; an empty sequence raises (modelled as `none`). -/
def pyChoicePoint (l : List Point) (draw : ℕ) : Option Point :=
  if l.isEmpty then none else some (l.getD (draw % l.length) ⟨0, 0⟩)

/-- The `while` retry of `_generate_stairs`: redraw the down-stair room
until it differs from the up-stair room; the draws are modelled as a
stream of indices and the fuel bounds the number of retries (the source
loop does not terminate on a stream that always repeats the up-stair
room). -/
def retryDownRoom (upIdx n : ℕ) (roomDraws : ℕ → ℕ) : ℕ → ℕ → Option ℕ
  | 0, _ => none
  | fuel + 1, k =>
    if roomDraws k % n = upIdx then retryDownRoom upIdx n roomDraws fuel (k + 1)
    else some (roomDraws k % n)

/-- `RoomGenerator._generate_stairs`: choose an up-stair room; with at
least two rooms redraw the down-stair room until it differs (room
equality in the source is object identity, here index identity),
otherwise reuse the same room; then choose one walkable point in
each. -/
def generateStairs (rooms : List Room) (roomDraws pointDraws : ℕ → ℕ)
    (retryFuel : ℕ) : Option (List Point × List Point) := do
  let n := rooms.length
  let upIdx := roomDraws 0 % n
  let downIdx ←
    if 2 ≤ n then retryDownRoom upIdx n roomDraws retryFuel 1 else some upIdx
  let dummy : Room := ⟨⟨⟨0, 0⟩, ⟨0, 0⟩⟩, []⟩
  let upPoint ← pyChoicePoint (rooms.getD upIdx dummy).walkable (pointDraws 0)
  let downPoint ← pyChoicePoint (rooms.getD downIdx dummy).walkable (pointDraws 1)
  pure ([upPoint], [downPoint])

/-- Rooms and stairs held by a RoomGenerator after `generate()`. -/
structure RoomGenState where
  rooms : List Room
  upStairs : List Point
  downStairs : List Point
deriving DecidableEq, Repr

/-- `RoomGenerator.generate`: accumulate rooms (hard stop on `None`),
return at once when no room was accumulated, otherwise place the
stairs.  `none` models a run whose stair retry loop never exits or
whose `random.choice` gets an empty sequence. -/
def roomGeneratorGenerate (roomInRect : Rect → Option Room) (rects : List Rect)
    (roomDraws pointDraws : ℕ → ℕ) (retryFuel : ℕ) : Option RoomGenState :=
  let rooms := generateRooms roomInRect rects
  if rooms.length = 0 then
    some ⟨rooms, [], []⟩
  else
    match generateStairs rooms roomDraws pointDraws retryFuel with
    | none => none
    | some (ups, downs) => some ⟨rooms, ups, downs⟩

/-- Outcome of one `RoomsAndCorridorsGenerator.generate` run. -/
inductive RunOutcome where
  | ok (state : RoomGenState) (corridors : List Corridor)
  | raised (e : PyError)
  | hung
deriving DecidableEq, Repr

/-- `RoomsAndCorridorsGenerator.generate`: run the room generator, then
invoke the corridor generator with the accumulated room list as its
`map` argument. -/
def roomsAndCorridorsGenerate (roomInRect : Rect → Option Room) (rects : List Rect)
    (roomDraws pointDraws : ℕ → ℕ) (retryFuel : ℕ) (corridorDraws : ℕ → ℚ) :
    RunOutcome :=
  match roomGeneratorGenerate roomInRect rects roomDraws pointDraws retryFuel with
  | none => .hung
  | some st =>
    match elbowGenerate (.roomList st.rooms) corridorDraws with
    | .error e => .raised e
    | .ok cors => .ok st cors

/-- C8: a run whose rectangle strategy yields zero rectangles does
leave the room generator with zero rooms and empty stair lists — stair
placement no-ops — but the full generate run then raises
AttributeError inside corridor routing, because the room list is passed
where the corridor generator expects a Map and a list has no `rooms`
attribute.  The claimed exception-free completion fails. -/
theorem zero_room_run_raises_attribute_error
    (roomInRect : Rect → Option Room) (roomDraws pointDraws : ℕ → ℕ)
    (retryFuel : ℕ) (corridorDraws : ℕ → ℚ) :
    roomGeneratorGenerate roomInRect [] roomDraws pointDraws retryFuel =
      some ⟨[], [], []⟩ ∧
    roomsAndCorridorsGenerate roomInRect [] roomDraws pointDraws retryFuel
        corridorDraws =
      .raised (.attributeError "list object has no attribute rooms") := by
  exact ⟨rfl, rfl⟩

/-!
`RandomRectMethod.generate`: sample candidate rectangles, reject any
candidate intersecting a previously accepted rectangle, retry up to 30
attempts per rectangle, stop the whole strategy when a budget is
exhausted, stop after the configured number of rooms.  The sampled
candidates (random size and origin per attempt) are modelled as a
stream indexed by the attempt number.
-/

/-- `any(candidate_rect.intersects(r) for r in self._rects)`. -/
def overlapsAnyExisting (candidate : Rect) (rects : List Rect) : Bool :=
  rects.any (fun r => candidate.intersects r)

/-- The inner attempt loop (`for _ in range(NUMBER_OF_ATTEMPTS_PER_RECT)`):
draw the next candidate; keep it iff it overlaps no accepted rectangle;
after exhausting the attempt budget the strategy returns
(`for ... else: return`), modelled as `none`. -/
def randomRectAttempts (cands : ℕ → Rect) (accepted : List Rect) :
    ℕ → ℕ → Option (Rect × ℕ)
  | _, 0 => none
  | idx, attempts + 1 =>
    if overlapsAnyExisting (cands idx) accepted then
      randomRectAttempts cands accepted (idx + 1) attempts
    else
      some (cands idx, idx + 1)

/-- The outer loop (`while len(self._rects) < number_of_rooms`): accept
one rectangle per iteration or end the run on budget exhaustion. -/
def randomRectsLoop (cands : ℕ → Rect) : ℕ → List Rect → ℕ → List Rect
  | 0, acc, _ => acc
  | remaining + 1, acc, idx =>
    match randomRectAttempts cands acc idx 30 with
    | none => acc
    | some (c, idx2) => randomRectsLoop cands remaining (acc ++ [c]) idx2

/-- `RandomRectMethod.generate` with the configured room count. -/
def randomRects (cands : ℕ → Rect) (numberOfRooms : ℕ) : List Rect :=
  randomRectsLoop cands numberOfRooms [] 0

theorem rect_intersects_symm (a b : Rect) : a.intersects b = b.intersects a := by
  unfold Rect.intersects Rect.minX Rect.maxX Rect.minY Rect.maxY
  split_ifs <;> rfl

theorem randomRectAttempts_accepts_disjoint (cands : ℕ → Rect) (accepted : List Rect) :
    ∀ (attempts idx : ℕ) (c : Rect) (idx2 : ℕ),
      randomRectAttempts cands accepted idx attempts = some (c, idx2) →
      overlapsAnyExisting c accepted = false := by
  intro attempts
  induction attempts with
  | zero => intro idx c idx2 h; exact absurd h (by simp [randomRectAttempts])
  | succ n ih =>
    intro idx c idx2 h
    rw [randomRectAttempts] at h
    by_cases hov : overlapsAnyExisting (cands idx) accepted = true
    · rw [if_pos hov] at h
      exact ih (idx + 1) c idx2 h
    · rw [if_neg hov] at h
      rcases h with ⟨rfl, rfl⟩
      exact Bool.eq_false_iff.mpr hov

theorem randomRectsLoop_pairwise (cands : ℕ → Rect) :
    ∀ (remaining : ℕ) (acc : List Rect) (idx : ℕ),
      List.Pairwise
        (fun a b => a.intersects b = false ∧ b.intersects a = false) acc →
      List.Pairwise
        (fun a b => a.intersects b = false ∧ b.intersects a = false)
        (randomRectsLoop cands remaining acc idx) := by
  intro remaining
  induction remaining with
  | zero => intro acc idx hacc; exact hacc
  | succ n ih =>
    intro acc idx hacc
    rw [randomRectsLoop]
    match hattempt : randomRectAttempts cands acc idx 30 with
    | none => exact hacc
    | some (c, idx2) =>
      apply ih
      rw [List.pairwise_append]
      refine ⟨hacc, List.pairwise_singleton _ _, ?_⟩
      intro a ha b hb
      have hb2 : b = c := by simpa using hb
      have hdisj := randomRectAttempts_accepts_disjoint cands acc 30 idx c idx2 hattempt
      unfold overlapsAnyExisting at hdisj
      rw [List.any_eq_false] at hdisj
      have h1 : c.intersects a = false := by simpa using hdisj a ha
      rw [hb2]
      exact ⟨by rw [rect_intersects_symm]; exact h1, h1⟩

/-- C6: every pair of distinct rectangles accepted by the
RandomPlacement strategy is non-intersecting, in both orientations of
`Rect.intersects`; a candidate intersecting a previously accepted
rectangle is never yielded. -/
theorem random_rects_pairwise_disjoint (cands : ℕ → Rect) (numberOfRooms : ℕ) :
    List.Pairwise (fun a b => a.intersects b = false ∧ b.intersects a = false)
      (randomRects cands numberOfRooms) :=
  randomRectsLoop_pairwise cands numberOfRooms [] 0 List.Pairwise.nil

/-!
`BSPRectMethod.generate`, probability computation (lines 266-278): for
a node of size `w x h` and configured minimum room size `mw x mh` the
source computes `max(1.0 / (w - mw), 1.0 / (h - mh))`, catching
ZeroDivisionError (either margin zero) as probability 1.0, and accepts
the node iff `random.random() <= probability_of_room`.
-/

/-- The acceptance probability the code computes: the max of the two
reciprocals, with a zero margin in either axis short-circuiting to
probability 1 through the ZeroDivisionError handler. -/
def probabilityOfRoom (w h mw mh : ℤ) : ℚ :=
  if w - mw = 0 ∨ h - mh = 0 then 1
  else max (1 / ((w : ℚ) - (mw : ℚ))) (1 / ((h : ℚ) - (mh : ℚ)))

/-- `random.random() <= probability_of_room`. -/
def bspAcceptNode (w h mw mh : ℤ) (draw : ℚ) : Bool :=
  decide (draw ≤ probabilityOfRoom w h mw mh)

/-- The acceptance probability the specification describes:
`1 / max(width - min_width, height - min_height)`, clamped to 1 when
that denominator is not positive. -/
def specProbabilityOfRoom (w h mw mh : ℤ) : ℚ :=
  if max (w - mw) (h - mh) ≤ 0 then 1
  else 1 / ((max (w - mw) (h - mh) : ℤ) : ℚ)

/-- C3 counterexample: a 9 x 12 node with 7 x 7 minimum room size has
margins 2 and 5; the code compares the draw against
`max(1/2, 1/5) = 1/2`, not against the claimed `1/max(2,5) = 1/5`; a
draw of 3/10 is accepted by the code but lies above the claimed
probability. -/
theorem bsp_probability_counterexample :
    probabilityOfRoom 9 12 7 7 = 1 / 2 ∧
    specProbabilityOfRoom 9 12 7 7 = 1 / 5 ∧
    bspAcceptNode 9 12 7 7 (3 / 10) = true ∧
    ¬((3 / 10 : ℚ) ≤ specProbabilityOfRoom 9 12 7 7) := by
  refine ⟨?_, ?_, ?_, ?_⟩ <;>
    norm_num [probabilityOfRoom, specProbabilityOfRoom, bspAcceptNode]

/-- C3 amended: for positive margins in both axes the acceptance
probability the code compares against the draw is the max of the two
reciprocals, equal to the reciprocal of the smaller margin
`1 / min(width - min_width, height - min_height)`; the node is accepted
exactly when the draw falls at or below that value.  (A zero margin in
either axis yields probability 1 through the ZeroDivisionError
handler; negative margins produce negative reciprocals and are not
clamped.) -/
theorem bsp_probability_amended (w h mw mh : ℤ) (draw : ℚ)
    (hw : 0 < w - mw) (hh : 0 < h - mh) :
    probabilityOfRoom w h mw mh = 1 / ((min (w - mw) (h - mh) : ℤ) : ℚ) ∧
    (bspAcceptNode w h mw mh draw = true ↔
      draw ≤ 1 / ((min (w - mw) (h - mh) : ℤ) : ℚ)) := by
  have hprob : probabilityOfRoom w h mw mh =
      1 / ((min (w - mw) (h - mh) : ℤ) : ℚ) := by
    unfold probabilityOfRoom
    rw [if_neg (by omega)]
    have ha : (0 : ℚ) < (w : ℚ) - (mw : ℚ) := by
      have : ((w - mw : ℤ) : ℚ) > 0 := by exact_mod_cast hw
      push_cast at this
      linarith
    have hb : (0 : ℚ) < (h : ℚ) - (mh : ℚ) := by
      have : ((h - mh : ℤ) : ℚ) > 0 := by exact_mod_cast hh
      push_cast at this
      linarith
    rcases le_total (w - mw) (h - mh) with hab | hab
    · rw [min_eq_left hab]
      have hab2 : (w : ℚ) - (mw : ℚ) ≤ (h : ℚ) - (mh : ℚ) := by
        have : ((w - mw : ℤ) : ℚ) ≤ ((h - mh : ℤ) : ℚ) := by exact_mod_cast hab
        push_cast at this
        linarith
      rw [max_eq_left (one_div_le_one_div_of_le ha hab2)]
      push_cast
      ring_nf
    · rw [min_eq_right hab]
      have hab2 : (h : ℚ) - (mh : ℚ) ≤ (w : ℚ) - (mw : ℚ) := by
        have : ((h - mh : ℤ) : ℚ) ≤ ((w - mw : ℤ) : ℚ) := by exact_mod_cast hab
        push_cast at this
        linarith
      rw [max_eq_right (one_div_le_one_div_of_le hb hab2)]
      push_cast
      ring_nf
  refine ⟨hprob, ?_⟩
  unfold bspAcceptNode
  rw [hprob]
  exact decide_eq_true_iff

/-- C3 witness: concrete 9 x 12 node and 7 x 7 minimum: the probability
is 1/2 = 1/min(2,5) and the draw 3/10 is accepted. -/
theorem bsp_probability_amended_witness :
    probabilityOfRoom 9 12 7 7 = 1 / ((min (9 - 7) (12 - 7) : ℤ) : ℚ) ∧
    (bspAcceptNode 9 12 7 7 (3 / 10) = true ↔
      (3 / 10 : ℚ) ≤ 1 / ((min (9 - 7) (12 - 7) : ℤ) : ℚ)) :=
  bsp_probability_amended 9 12 7 7 (3 / 10) (by norm_num) (by norm_num)

/-!
`OrRoomMethod` (weighted choice of room carvers).  The probabilities
are Python floats; both the construction-time assert
`sum(m[0] for m in methods) == 1.0` and the cumulative walk of
`room_in_rect` fold the same addition left-to-right from the same
starting zero, so the development is parametric in the numeric type and
in its addition: whatever float addition computes, the final threshold
of the walk is bit-for-bit the validated sum.
-/

/-- The cumulative walk of `OrRoomMethod.room_in_rect`:
`threshold += probability; if factor <= threshold: return
method.room_in_rect(rect)`; falling off the end returns `None`. -/
def orWalk {α : Type} [LinearOrder α] (add : α → α → α) (factor : α) (rect : Rect) :
    α → List (α × (Rect → Option Room)) → Option Room
  | _, [] => none
  | threshold, m :: rest =>
    if factor ≤ add threshold m.1 then m.2 rect
    else orWalk add factor rect (add threshold m.1) rest

/-- `OrRoomMethod.room_in_rect`: the threshold starts at zero. -/
def orRoomInRect {α : Type} [LinearOrder α] (add : α → α → α) (zero : α)
    (methods : List (α × (Rect → Option Room))) (factor : α) (rect : Rect) :
    Option Room :=
  orWalk add factor rect zero methods

/-- The sum checked by the construction-time assert: Python `sum` folds
the addition left-to-right from zero, exactly like the walk. -/
def orMethodsSum {α : Type} (add : α → α → α) (zero : α)
    (methods : List (α × (Rect → Option Room))) : α :=
  methods.foldl (fun t m => add t m.1) zero

theorem orWalk_isSome {α : Type} [LinearOrder α] (add : α → α → α)
    (factor : α) (rect : Rect) :
    ∀ (ms : List (α × (Rect → Option Room))) (t : α), ms ≠ [] →
      factor ≤ ms.foldl (fun t m => add t m.1) t →
      (∀ m ∈ ms, (m.2 rect).isSome) →
      (orWalk add factor rect t ms).isSome := by
  intro ms
  induction ms with
  | nil => intro t h; exact absurd rfl h
  | cons m rest ih =>
    intro t _ hle hsome
    rw [orWalk]
    by_cases hc : factor ≤ add t m.1
    · rw [if_pos hc]
      exact hsome m (by simp)
    · rw [if_neg hc]
      rcases List.eq_nil_or_concat rest with hrest | _
      · subst hrest
        simp only [List.foldl_cons, List.foldl_nil] at hle
        exact absurd hle hc
      · apply ih (add t m.1) (by rintro rfl; simp at *)
        · simpa using hle
        · intro z hz
          exact hsome z (by simp [hz])

/-- C10: when the validated sum of the probabilities is `one`, every
member carver returns a room, the method list is non-empty and the
uniform draw is strictly below `one`, the weighted-choice walk always
selects a member — the fall-through `return None` is unreachable,
because the final threshold of the walk is the validated sum itself. -/
theorem or_room_method_never_none {α : Type} [LinearOrder α] (add : α → α → α)
    (zero one : α) (methods : List (α × (Rect → Option Room)))
    (factor : α) (rect : Rect)
    (hne : methods ≠ [])
    (hsum : orMethodsSum add zero methods = one)
    (hfac : factor < one)
    (hsome : ∀ m ∈ methods, (m.2 rect).isSome) :
    (orRoomInRect add zero methods factor rect).isSome := by
  apply orWalk_isSome add factor rect methods zero hne
  · unfold orMethodsSum at hsum
    rw [hsum]
    exact le_of_lt hfac
  · exact hsome

/-- C10 witness: one method with probability 1 over the rationals and a
draw of 1/2; the walk returns the room of that method. -/
theorem or_room_method_never_none_witness :
    (orRoomInRect (fun a b => a + b) (0 : ℚ)
      [(1, fun _ => some ⟨⟨⟨0, 0⟩, ⟨1, 1⟩⟩, []⟩)] (1 / 2)
      ⟨⟨0, 0⟩, ⟨1, 1⟩⟩).isSome :=
  or_room_method_never_none (fun a b => a + b) 0 1 _ (1 / 2) _
    (by simp)
    (by unfold orMethodsSum; simp)
    (by norm_num)
    (by
      intro m hm
      simp only [List.mem_singleton] at hm
      subst hm
      rfl)
